import Mathlib

/-!
Shallow embedding of the algorithmic core of the `quantiphyse-asl` plugin
(ASL data-ordering widgets, vessel-encoding matrix conversions and the
Basil process launcher), with theorems checking the natural-language
specification against the code.

Numeric grid values are embedded as exact rationals; the floating-point
trigonometric routines (`np.sin`, `np.cos`, `math.acos`, `np.sqrt`) are
embedded as uninterpreted function parameters, since their float values
are not exactly representable. The constant `3.14159265` hard-coded in
`veasl_widgets.py` is embedded exactly.
-/

namespace AslWidgets

/-! ## `get_auto_repeats` (aslimage_widget.py)

```
nrpts = float(nvols) / ntis
nrpts /= ntc
rpts = [max(1, int(nrpts)),] * ntis
missing = sum(rpts) * ntc
for idx in range(min(0, missing)):
    rpts[idx] += 1
```
`ntis` is the number of TIs/PLDs, `ntc` the label count
(`get_num_label_vols`). Division is embedded exactly over ℚ and `int()`
truncation of the non-negative quotient as the floor. -/

/-- The per-slot repeat value before the "distribute missing" loop:
`max(1, int(float(nvols) / ntis / ntc))`. -/
def autoRepeatBase (nvols ntis ntc : ℕ) : ℕ :=
  max 1 (⌊(nvols : ℚ) / (ntis : ℚ) / (ntc : ℚ)⌋.toNat)

/-- `missing = sum(rpts) * ntc` computed on the initial list. -/
def autoRepeatsMissing (nvols ntis ntc : ℕ) : ℤ :=
  ((List.replicate ntis (autoRepeatBase nvols ntis ntc)).sum : ℤ) * (ntc : ℤ)

/-- `for idx in range(b): rpts[idx] += 1` -/
def bumpLoop : ℕ → List ℕ → List ℕ
  | 0, rpts => rpts
  | _, [] => []
  | n + 1, r :: rest => (r + 1) :: bumpLoop n rest

/-- Embedding of `get_auto_repeats` for loaded data with `nvols` volumes
(the `data is None` early return is not modelled). -/
def getAutoRepeats (nvols ntis ntc : ℕ) : List ℕ :=
  let rpts := List.replicate ntis (autoRepeatBase nvols ntis ntc)
  let missing := autoRepeatsMissing nvols ntis ntc
  bumpLoop (min 0 missing).toNat rpts

/-! ## `Times._edit_changed` (aslimage_widget.py)

Metadata is embedded as a record of the optional keys this handler
touches; a key's absence is `none`. A successful parse of the edit text
is embedded as `some times`; a `ValueError` during parsing as `none`. -/

structure TimesMd where
  tis : Option (List ℚ)
  plds : Option (List ℚ)
  casl : Option Bool
  deriving DecidableEq, Repr

/-- Embedding of `Times._edit_changed`: on successful parse, store under
`plds` and drop `tis` when `casl` is true or absent, and conversely;
on a parse failure leave the metadata untouched. -/
def timesEditChanged (md : TimesMd) (parsed : Option (List ℚ)) : TimesMd :=
  match parsed with
  | none => md
  | some times =>
      if md.casl.getD true then
        { md with plds := some times, tis := none }
      else
        { md with tis := some times, plds := none }

/-! ## `BasilProcess._start_fabber` (process.py)

Fabber option values are a mix of strings, booleans, image references
and the output-rename map; embedded as an inductive value type. The
option dict is an association list with first-match lookup; setting a
key conses it in front (so lookup sees the latest value, matching dict
overwrite semantics). -/

inductive OptVal where
  | str : String → OptVal
  | flag : Bool → OptVal
  | img : String → OptVal
  | rename : List (String × String) → OptVal
  deriving DecidableEq, Repr

/-- `BasilProcess.OUTPUT_RENAME` -/
def OUTPUT_RENAME : List (String × String) :=
  [("mean_ftiss", "perfusion"),
   ("mean_delttiss", "arrival"),
   ("mean_fblood", "aCBV"),
   ("mean_tau", "duration"),
   ("std_ftiss", "perfusion_std"),
   ("std_delttiss", "arrival_std"),
   ("std_fblood", "aCBV_std"),
   ("std_tau", "duration_std")]

/-- The loop replacing `fsl.data.image.Image` values by their names and
renaming the `mask` key to `roi`. -/
def imageOptsPass (opts : List (String × OptVal)) : List (String × OptVal) :=
  opts.map fun kv =>
    match kv with
    | (k, OptVal.img name) => if k = "mask" then ("roi", OptVal.str name) else (k, OptVal.str name)
    | other => other

/-- Embedding of `BasilProcess._start_fabber` (quantiphyse_basil version):
the option map handed to the fabber engine for one step, given the
step's own options, the 1-based step number and the total number of
steps. -/
def startFabberOptions (stepOpts : List (String × OptVal)) (stepNum nSteps : ℕ) :
    List (String × OptVal) :=
  let opts := imageOptsPass (("model-group", OptVal.str "asl") :: stepOpts)
  let opts :=
    if stepNum = nSteps then
      ("save-model-fit", OptVal.flag true) :: ("save-std", OptVal.flag true) ::
        ("save-mean", OptVal.flag true) :: opts
    else
      ("save-mvn", OptVal.flag true) :: opts
  let opts := ("output-rename", OptVal.rename OUTPUT_RENAME) :: opts
  if stepNum > 1 then ("continue-from-mvn", OptVal.str "finalMVN") :: opts else opts

/-- First-match lookup in the option map (dict access). -/
def lookupOpt (k : String) (opts : List (String × OptVal)) : Option OptVal :=
  (opts.find? (fun kv => kv.1 = k)).map (·.2)

end AslWidgets

namespace Veasl

/-! ## Vessel-encoding matrices (`basil/veasl_widgets.py`, `EncodingWidget`)

A TWO matrix row is `(θ°, image_type, vA, vB)`; a MAC matrix column is
`(CX, CY, θ°, D)`. The widget stores both as float grids; values are
embedded as rationals and the float `sin`/`cos` as uninterpreted
parameters `sinp`/`cosp` (both conversions evaluate them at the same
arguments, so the round-trip algebra is independent of their values). -/

/-- The constant `3.14159265` hard-coded in `_two_changed`/`_mac_changed`. -/
def pq : ℚ := 314159265 / 100000000

/-- The double-precision value of `math.pi` (exactly `884279719003555 / 2^48`),
used by `math.degrees` in `_autogen`. -/
def piFloat : ℚ := 884279719003555 / 281474976710656

/-- Python float `x % 2` for a finite float: `x - 2*floor(x/2)`. -/
def qmod2 (x : ℚ) : ℚ := x - 2 * (⌊x / 2⌋ : ℤ)

structure TwoRow where
  th : ℚ
  ty : ℚ
  va : ℚ
  vb : ℚ
  deriving DecidableEq, Repr

structure MacCol where
  cx : ℚ
  cy : ℚ
  th : ℚ
  d : ℚ
  deriving DecidableEq, Repr

/-- Embedding of `EncodingWidget._update_imlist`: start from
`two[:, 1] - 1` and replace each positive entry by a running 1-based
counter over such entries. -/
def updateImlistAux : ℕ → List TwoRow → List ℚ
  | _, [] => []
  | inc, r :: rest =>
      if r.ty - 1 > 0 then (inc : ℚ) :: updateImlistAux (inc + 1) rest
      else (r.ty - 1) :: updateImlistAux inc rest

def updateImlist (two : List TwoRow) : List ℚ := updateImlistAux 1 two

/-- One encoded row of `_two_changed`: angle `90 - θ` with a `+180` flip
when `vA > vB`, half-width `|vA - vB| / 2`, centre at the mean of
`vA`,`vB` along the gradient direction, shifted outward by twice the
half-width for a reverse cycle (`image_type > 2`). -/
def twoRowToMac (sinp cosp : ℚ → ℚ) (r : TwoRow) : MacCol :=
  let th := if r.va > r.vb then (-r.th + 90) + 180 else -r.th + 90
  let dH := |r.va - r.vb| / 2
  let thtsp := r.th * pq / 180
  let conline := (r.va + r.vb) / 2
  let m := if r.ty > 2 then conline + 2 * dH else conline
  { cx := m * sinp thtsp, cy := m * cosp thtsp, th := th, d := dH }

/-- Embedding of `_two_changed`: one MAC column per row with
`image_type > 1` (`enccyc`), in row order. -/
def twoToMac (sinp cosp : ℚ → ℚ) (two : List TwoRow) : List MacCol :=
  (two.filter (fun r => r.ty > 1)).map (twoRowToMac sinp cosp)

/-- The image type `_mac_changed` assigns to a row whose stored imlist
value is `v`: rows with `v > 0` (the `v`-th encoded image, 1-based)
become `2 + ((v + 1) % 2)`; other rows keep `v + 1`. -/
def macImType (v : ℚ) : ℚ := if v > 0 then 2 + qmod2 (v + 1) else v + 1

/-- One encoded row of `_mac_changed`: undo the 180° flip, recover the
TWO angle as `90 - θ`, recover `vA`,`vB` from the centre coordinate with
the larger direction cosine, undo the reverse-cycle centre shift when
the assigned type is 3, and swap `vA`,`vB` when the MAC angle exceeded
180°. -/
def macColToTwoRow (sinp cosp : ℚ → ℚ) (ty : ℚ) (m : MacCol) : TwoRow :=
  let th1 := if m.th > 180 then m.th - 180 else m.th
  let th2 := -th1 + 90
  let s := sinp (th2 * pq / 180)
  let c := cosp (th2 * pq / 180)
  let base := if |s| > |c| then m.cx / s else m.cy / c
  let vb0 := base + m.d
  let va0 := base - m.d
  let va1 := if ty = 3 then va0 - 2 * m.d else va0
  let vb1 := if ty = 3 then vb0 - 2 * m.d else vb0
  if m.th > 180 then { th := th2, ty := ty, va := vb1, vb := va1 }
  else { th := th2, ty := ty, va := va1, vb := vb1 }

/-- Embedding of `_mac_changed`: walk the stored imlist; each row with a
positive imlist value consumes the next MAC column, other rows produce
the zero-initialised row `(0, v+1, 0, 0)`. `none` models the numpy
shape error when the MAC column count does not match the number of
encoded rows. -/
def macToTwoAux (sinp cosp : ℚ → ℚ) : List ℚ → List MacCol → Option (List TwoRow)
  | [], [] => some []
  | [], _ :: _ => none
  | v :: rest, macs =>
      if macImType v > 1 then
        match macs with
        | [] => none
        | mcol :: mrest =>
            (macToTwoAux sinp cosp rest mrest).map
              (macColToTwoRow sinp cosp (macImType v) mcol :: ·)
      else
        (macToTwoAux sinp cosp rest macs).map
          (fun rs => { th := 0, ty := macImType v, va := 0, vb := 0 } :: rs)

def macToTwo (sinp cosp : ℚ → ℚ) (imlist : List ℚ) (mac : List MacCol) :
    Option (List TwoRow) :=
  macToTwoAux sinp cosp imlist mac

/-- Embedding of `EncodingWidget._autogen` (basil version): with data
loaded (`nvols` volumes) and vessel locations `(xs, ys)`, either warn
and leave the matrices unchanged (`Except.error`) or replace the TWO
matrix (`Except.ok`). `math.acos`, `np.sqrt` and the trig functions are
uninterpreted parameters. -/
def autogen (sinp cosp acosp sqrtp : ℚ → ℚ) (nvols0 : ℕ) (xs ys : List ℚ) :
    Except String (List (List ℚ)) :=
  let nvols := if nvols0 = 0 then 8 else nvols0
  if ¬(nvols = 6 ∨ nvols = 8) then
    Except.error "Auto-generation of encoding matrix only supported for 6 or 8 encoding cycles"
  else if xs.length ≠ 4 then
    Except.error "Auto-generation of encoding matrix only supported with 4 inferred vessels"
  else
    let lr1 := xs.getD 0 0
    let lr2 := xs.getD 1 0
    let ap1 := (ys.getD 0 0 + ys.getD 1 0) / 2
    let ap2 := (ys.getD 2 0 + ys.getD 3 0) / 2
    let base : List (List ℚ) :=
      [[0, 0, 0, 0],
       [0, 1, 0, 0],
       [90, 2, lr1, lr2],
       [90, 3, lr1, lr2],
       [0, 2, ap1, ap2],
       [0, 3, ap1, ap2]]
    if nvols = 8 then
      let dx := xs.getD 3 0 - xs.getD 0 0
      let dy := ys.getD 3 0 - ys.getD 0 0
      let tagRad := acosp (dx / sqrtp (dx ^ 2 + dy ^ 2))
      let tagDeg := tagRad * 180 / piFloat
      let isodist := fun v => xs.getD v 0 * sinp tagRad + ys.getD v 0 * cosp tagRad
      let vA := (isodist 0 + isodist 3) / 2
      let vB := vA + (|vA - isodist 1| + |vA - isodist 2|) / 2
      Except.ok (base ++ [[tagDeg, 2, vA, vB], [tagDeg, 3, vA, vB]])
    else
      Except.ok base

end Veasl

namespace AslWidgets

/-- **C2.** For every metadata and data set with `nvols` frames (with a
positive number of timing values and a positive label count), the
auto-repeats computation returns `ntis` identical entries, each
`max(1, floor(nvols / (ntis * label_count)))`, and the "distribute
missing repeats" loop bound `min(0, missing)` is zero, so the loop
never executes and never increments any entry. -/
theorem getAutoRepeats_replicate_and_dead_loop (nvols ntis ntc : ℕ)
    (_hti : 0 < ntis) (_htc : 0 < ntc) :
    getAutoRepeats nvols ntis ntc =
      List.replicate ntis (max 1 (nvols / (ntis * ntc))) ∧
    min 0 (autoRepeatsMissing nvols ntis ntc) = 0 := by
  have hbase : autoRepeatBase nvols ntis ntc = max 1 (nvols / (ntis * ntc)) := by
    unfold autoRepeatBase
    congr 1
    rw [Int.floor_toNat, Nat.floor_div_nat, Nat.floor_div_nat, Nat.floor_natCast,
      Nat.div_div_eq_div_mul]
  have hmiss : (0 : ℤ) ≤ autoRepeatsMissing nvols ntis ntc := by
    unfold autoRepeatsMissing
    positivity
  have hmin : min 0 (autoRepeatsMissing nvols ntis ntc) = 0 := min_eq_left hmiss
  refine ⟨?_, hmin⟩
  simp only [getAutoRepeats, hmin, hbase, Int.toNat_zero, bumpLoop]

/-- Witness for C2 at `nvols = 10`, `ntis = 2`, `ntc = 2`. -/
theorem getAutoRepeats_replicate_and_dead_loop_witness :
    getAutoRepeats 10 2 2 = List.replicate 2 (max 1 (10 / (2 * 2))) ∧
    min 0 (autoRepeatsMissing 10 2 2) = 0 :=
  getAutoRepeats_replicate_and_dead_loop 10 2 2 (by decide) (by decide)

/-- **C9.** After a successful timing-value edit the metadata holds at
most one of `tis`/`plds`: the parsed values are stored under `plds`
with `tis` removed when `casl` is true or absent, and under `tis` with
`plds` removed otherwise. -/
theorem timesEditChanged_exclusive (md : TimesMd) (times : List ℚ) :
    (timesEditChanged md (some times)).plds =
      (if md.casl.getD true then some times else none) ∧
    (timesEditChanged md (some times)).tis =
      (if md.casl.getD true then none else some times) ∧
    ((timesEditChanged md (some times)).tis = none ∨
      (timesEditChanged md (some times)).plds = none) := by
  cases h : md.casl.getD true <;> simp [timesEditChanged, h]

/-- **C8.** Every fabber step launched by the Basil process receives an
output-rename map exactly equal to the eight-entry
`mean_ftiss → perfusion, …, std_tau → duration_std` map. -/
theorem startFabberOptions_output_rename (stepOpts : List (String × OptVal))
    (stepNum nSteps : ℕ) :
    lookupOpt "output-rename" (startFabberOptions stepOpts stepNum nSteps) =
      some (OptVal.rename
        [("mean_ftiss", "perfusion"),
         ("mean_delttiss", "arrival"),
         ("mean_fblood", "aCBV"),
         ("mean_tau", "duration"),
         ("std_ftiss", "perfusion_std"),
         ("std_delttiss", "arrival_std"),
         ("std_fblood", "aCBV_std"),
         ("std_tau", "duration_std")]) := by
  by_cases h : stepNum > 1 <;>
    simp [startFabberOptions, lookupOpt, h, OUTPUT_RENAME, List.find?]

end AslWidgets

namespace Veasl

/-- **C7.** Auto-generation of the vessel-encoding matrix from vessel
locations fails (with a warning, leaving the existing matrices
unchanged) exactly when the vessel count differs from 4 or the number
of encoding cycles is neither 6 nor 8; on success it replaces the TWO
matrix with one row per encoding cycle. -/
theorem autogen_supported_configurations (sinp cosp acosp sqrtp : ℚ → ℚ)
    (nvols : ℕ) (xs ys : List ℚ) (hn : 0 < nvols) (_hxy : xs.length = ys.length) :
    ((autogen sinp cosp acosp sqrtp nvols xs ys).isOk = true ↔
      (xs.length = 4 ∧ (nvols = 6 ∨ nvols = 8))) ∧
    (∀ m, autogen sinp cosp acosp sqrtp nvols xs ys = Except.ok m →
      m.length = nvols) := by
  have h0 : ¬(nvols = 0) := Nat.pos_iff_ne_zero.mp hn
  by_cases h68 : nvols = 6 ∨ nvols = 8
  · by_cases h4 : xs.length = 4
    · rcases h68 with h6 | h8
      · subst h6
        simp [autogen, h4, Except.isOk, Except.toBool]
      · subst h8
        simp [autogen, h4, Except.isOk, Except.toBool]
    · constructor
      · simp only [autogen, h0, if_false, h68, not_true_eq_false]
        simp [h4, Except.isOk, Except.toBool]
      · intro m hm
        simp only [autogen, h0, if_false, h68, not_true_eq_false] at hm
        simp [h4] at hm
  · constructor
    · simp [autogen, h0, h68, Except.isOk, Except.toBool]
    · intro m hm
      simp [autogen, h0, h68] at hm

/-- Witness for C7: 4 vessels and 6 encoding cycles succeed. -/
theorem autogen_supported_configurations_witness :
    ((autogen id id id id 6 [1, 2, 3, 4] [5, 6, 7, 8]).isOk = true ↔
      (([1, 2, 3, 4] : List ℚ).length = 4 ∧ ((6 : ℕ) = 6 ∨ (6 : ℕ) = 8))) ∧
    (∀ m, autogen id id id id 6 [1, 2, 3, 4] [5, 6, 7, 8] = Except.ok m →
      m.length = 6) :=
  autogen_supported_configurations id id id id 6 [1, 2, 3, 4] [5, 6, 7, 8]
    (by decide) (by decide)

end Veasl

namespace Veasl

theorem updateImlistAux_length (inc : ℕ) (two : List TwoRow) :
    (updateImlistAux inc two).length = two.length := by
  induction two generalizing inc with
  | nil => rfl
  | cons r rest ih =>
      simp only [updateImlistAux]
      split <;> simp [ih]

/-- Value of each imlist entry, with the running counter generalized:
entries for encoded rows (`image_type > 1`) count encoded rows from
`inc` upward; other rows keep `image_type - 1`. -/
theorem updateImlistAux_getD (two : List TwoRow) (inc : ℕ) (i : ℕ)
    (hi : i < two.length) :
    (updateImlistAux inc two).getD i 0 =
      if (two.get ⟨i, hi⟩).ty > 1 then
        (inc : ℚ) + (((two.take i).filter (fun r => r.ty > 1)).length : ℚ)
      else (two.get ⟨i, hi⟩).ty - 1 := by
  induction two generalizing inc i with
  | nil => exact absurd hi (Nat.not_lt_zero i)
  | cons r rest ih =>
      cases i with
      | zero =>
          simp only [updateImlistAux, List.take_zero, List.filter_nil,
            List.length_nil, List.get]
          by_cases h : r.ty - 1 > 0
          · have hr : r.ty > 1 := by linarith
            simp [h, hr]
          · have hr : ¬(r.ty > 1) := fun hc => h (by linarith)
            simp [h, hr]
      | succ j =>
          have hj : j < rest.length := Nat.lt_of_succ_lt_succ hi
          by_cases h : r.ty - 1 > 0
          · have hr : r.ty > 1 := by linarith
            have hfc : List.filter (fun r => decide (r.ty > 1)) (r :: List.take j rest) =
                r :: List.filter (fun r => decide (r.ty > 1)) (List.take j rest) := by
              simp [hr]
            simp only [updateImlistAux, if_pos h, List.getD_cons_succ,
              ih (inc + 1) j hj, List.take_succ_cons, List.get, hfc, List.length_cons]
            split
            · push_cast
              ring
            · rfl
          · have hr : ¬(r.ty > 1) := fun hc => h (by linarith)
            have hfc : List.filter (fun r => decide (r.ty > 1)) (r :: List.take j rest) =
                List.filter (fun r => decide (r.ty > 1)) (List.take j rest) := by
              simp [hr]
            simp only [updateImlistAux, if_neg h, List.getD_cons_succ,
              ih inc j hj, List.take_succ_cons, List.get, hfc]

/-- **C6 (amended).** The derived imlist has one entry per TWO row; a
row with image type greater than 1 gets the 1-based sequential index of
that row among such rows (in row order), while a row with image type at
most 1 keeps the value `image_type - 1` (which is 0 only when the image
type is exactly 1, and negative for image type 0). -/
theorem updateImlist_spec (two : List TwoRow) (i : ℕ) (hi : i < two.length) :
    (updateImlist two).length = two.length ∧
    (updateImlist two).getD i 0 =
      (if (two.get ⟨i, hi⟩).ty > 1 then
        1 + (((two.take i).filter (fun r => r.ty > 1)).length : ℚ)
      else (two.get ⟨i, hi⟩).ty - 1) := by
  refine ⟨updateImlistAux_length 1 two, ?_⟩
  rw [updateImlist, updateImlistAux_getD two 1 i hi]
  norm_num

/-- Witness for C6 at a three-row matrix, checked at the encoded row. -/
theorem updateImlist_spec_witness :
    (updateImlist [⟨0, 1, 0, 0⟩, ⟨90, 2, 1, 2⟩, ⟨0, 3, 3, 5⟩]).length = 3 ∧
    (updateImlist [⟨0, 1, 0, 0⟩, ⟨90, 2, 1, 2⟩, ⟨0, 3, 3, 5⟩]).getD 2 0 =
      (if (([⟨0, 1, 0, 0⟩, ⟨90, 2, 1, 2⟩, ⟨0, 3, 3, 5⟩] :
            List TwoRow).get ⟨2, by decide⟩).ty > 1 then
        1 + (((([⟨0, 1, 0, 0⟩, ⟨90, 2, 1, 2⟩, ⟨0, 3, 3, 5⟩] :
            List TwoRow).take 2).filter (fun r => r.ty > 1)).length : ℚ)
      else (([⟨0, 1, 0, 0⟩, ⟨90, 2, 1, 2⟩, ⟨0, 3, 3, 5⟩] :
            List TwoRow).get ⟨2, by decide⟩).ty - 1) :=
  updateImlist_spec [⟨0, 1, 0, 0⟩, ⟨90, 2, 1, 2⟩, ⟨0, 3, 3, 5⟩] 2 (by decide)

/-- **C6 counterexample.** On the default auto-generated matrix shape —
whose first row `[0, 0, 0, 0]` has image type 0, a non-encoded row —
the imlist entry is `-1`, not `0` as the claim states. -/
theorem updateImlist_counterexample :
    updateImlist [⟨0, 0, 0, 0⟩, ⟨0, 1, 0, 0⟩, ⟨90, 2, 1, 2⟩] = [-1, 0, 1] ∧
    (⟨0, 0, 0, 0⟩ : TwoRow).ty ≤ 1 ∧ ((-1 : ℚ) ≠ 0) := by
  refine ⟨by norm_num [updateImlist, updateImlistAux], by norm_num, by norm_num⟩

theorem qmod2_natCast (n : ℕ) : qmod2 (n : ℚ) = ((n % 2 : ℕ) : ℚ) := by
  unfold qmod2
  have hfl : ⌊((n : ℚ) / 2)⌋ = ((n / 2 : ℕ) : ℤ) := by
    have h := Rat.floor_natCast_div_natCast n 2
    norm_num at h ⊢
    exact h
  rw [hfl]
  have h2 : ((n % 2 : ℕ) : ℚ) + 2 * ((n / 2 : ℕ) : ℚ) = (n : ℚ) := by
    exact_mod_cast congrArg (fun m : ℕ => (m : ℚ)) (Nat.mod_add_div n 2)
  have h3 : (((n / 2 : ℕ) : ℤ) : ℚ) = ((n / 2 : ℕ) : ℚ) := Int.cast_natCast (n / 2)
  rw [h3]
  linarith

theorem macImType_natCast (k : ℕ) (hk : 0 < k) :
    macImType (k : ℚ) = if k % 2 = 0 then 3 else 2 := by
  unfold macImType
  have hpos : (0 : ℚ) < (k : ℚ) := by exact_mod_cast hk
  rw [if_pos hpos]
  have hc : ((k : ℚ) + 1) = ((k + 1 : ℕ) : ℚ) := by push_cast; ring
  rw [hc, qmod2_natCast]
  rcases Nat.mod_two_eq_zero_or_one k with h | h
  · have h1 : (k + 1) % 2 = 1 := by omega
    rw [h1, if_pos h]
    norm_num
  · have h1 : (k + 1) % 2 = 0 := by omega
    rw [h1, if_neg (by omega : ¬k % 2 = 0)]
    norm_num

/-- **C5 (amended).** In the MAC-to-TWO conversion an encoded image is
treated as a reverse cycle — image type 3, with the phase-shift
correction subtracting twice the half-width from both `vA` and `vB` —
exactly when its 1-based sequential position `k` among the encoded
images is even; odd positions get image type 2 and no correction. -/
theorem macToTwo_reverse_cycles_even (sinp cosp : ℚ → ℚ) (m : MacCol) (k : ℕ)
    (hk : 0 < k) :
    (macImType (k : ℚ) = if k % 2 = 0 then 3 else 2) ∧
    (macColToTwoRow sinp cosp (macImType (k : ℚ)) m).ty = macImType (k : ℚ) ∧
    (macColToTwoRow sinp cosp (macImType (k : ℚ)) m).va =
      (macColToTwoRow sinp cosp 2 m).va - (if k % 2 = 0 then 2 * m.d else 0) ∧
    (macColToTwoRow sinp cosp (macImType (k : ℚ)) m).vb =
      (macColToTwoRow sinp cosp 2 m).vb - (if k % 2 = 0 then 2 * m.d else 0) := by
  have him := macImType_natCast k hk
  rcases Nat.mod_two_eq_zero_or_one k with h | h
  · rw [if_pos h] at him
    rw [him, if_pos h]
    refine ⟨rfl, ?_, ?_, ?_⟩ <;>
      · norm_num [macColToTwoRow]
        split_ifs <;> first | rfl | ring
  · have h0 : ¬k % 2 = 0 := by omega
    rw [if_neg h0] at him
    rw [him, if_neg h0]
    refine ⟨rfl, ?_, ?_, ?_⟩ <;>
      · norm_num [macColToTwoRow]
        split_ifs <;> first | rfl | ring

/-- Witness for C5 at `k = 2` (even: reverse cycle, type 3). -/
theorem macToTwo_reverse_cycles_even_witness :
    (macImType ((2 : ℕ) : ℚ) = if 2 % 2 = 0 then 3 else 2) ∧
    (macColToTwoRow id id (macImType ((2 : ℕ) : ℚ)) ⟨1, 2, 90, 5⟩).ty =
      macImType ((2 : ℕ) : ℚ) ∧
    (macColToTwoRow id id (macImType ((2 : ℕ) : ℚ)) ⟨1, 2, 90, 5⟩).va =
      (macColToTwoRow id id 2 ⟨1, 2, 90, 5⟩).va -
        (if 2 % 2 = 0 then 2 * (⟨1, 2, 90, 5⟩ : MacCol).d else 0) ∧
    (macColToTwoRow id id (macImType ((2 : ℕ) : ℚ)) ⟨1, 2, 90, 5⟩).vb =
      (macColToTwoRow id id 2 ⟨1, 2, 90, 5⟩).vb -
        (if 2 % 2 = 0 then 2 * (⟨1, 2, 90, 5⟩ : MacCol).d else 0) :=
  macToTwo_reverse_cycles_even id id ⟨1, 2, 90, 5⟩ 2 (by decide)

/-- **C5 counterexample.** With two encoded images (stored imlist
`[1, 2]`) and identical MAC columns, the first encoded image — odd
1-based position — is assigned image type 2 with no phase-shift
correction, and the second (even) position gets type 3 with the
correction; the claim states the opposite parity. The trig parameters
are instantiated with the exact float values `sin(0) = 0`,
`cos(0) = 1` taken at the only angle used. -/
theorem macToTwo_parity_counterexample :
    macToTwo (fun _ => 0) (fun _ => 1) [1, 2]
        [⟨0, 5/2, 90, 1/2⟩, ⟨0, 5/2, 90, 1/2⟩] =
      some [⟨0, 2, 2, 3⟩, ⟨0, 3, 1, 2⟩] ∧ ((2 : ℚ) ≠ 3) := by
  constructor
  · norm_num [macToTwo, macToTwoAux, macImType, macColToTwoRow, qmod2, pq]
  · norm_num

/-- Recovering the centre-line coordinate: whichever of `cx / s`,
`cy / c` the inverse picks, the result is the forward conversion's
centre-line value `m`, as long as `s` and `c` do not both vanish. -/
theorem base_recovers (s c m : ℚ) (hsc : ¬(s = 0 ∧ c = 0)) :
    (if |s| > |c| then m * s / s else m * c / c) = m := by
  by_cases h : |s| > |c|
  · rw [if_pos h]
    have hs : s ≠ 0 := by
      intro h0
      rw [h0, abs_zero] at h
      exact absurd h (not_lt.mpr (abs_nonneg c))
    exact mul_div_cancel_right₀ m hs
  · rw [if_neg h]
    have hc : c ≠ 0 := by
      intro h0
      rw [h0, abs_zero] at h
      push_neg at h
      exact hsc ⟨abs_eq_zero.mp (le_antisymm h (abs_nonneg s)), h0⟩
    exact mul_div_cancel_right₀ m hc

/-- Single-row round trip TWO → MAC → TWO: an encoded row of type 2 or
3 survives `_two_changed` followed by `_mac_changed` provided its angle
satisfies `θ ≥ -90` (and additionally `θ < 90` when `vA > vB`, so the
180°-flip branches match up), `vA ≠ vB`, and the direction sines and
cosines do not both vanish at its angle. -/
theorem twoRow_roundtrip (sinp cosp : ℚ → ℚ) (r : TwoRow)
    (hty : r.ty = 2 ∨ r.ty = 3)
    (hrange : (r.va < r.vb ∧ -90 ≤ r.th) ∨ (r.vb < r.va ∧ -90 ≤ r.th ∧ r.th < 90))
    (hsc : ¬(sinp (r.th * pq / 180) = 0 ∧ cosp (r.th * pq / 180) = 0)) :
    macColToTwoRow sinp cosp r.ty (twoRowToMac sinp cosp r) = r := by
  obtain ⟨th, ty, va, vb⟩ := r
  simp only at hty hrange hsc ⊢
  rcases hrange with ⟨hv, hth⟩ | ⟨hv, hth, hth2⟩
  · -- va < vb: no 180° flip, MAC angle -θ+90 ≤ 180
    have hflip : ¬(va > vb) := not_lt.mpr (le_of_lt hv)
    have habs : |va - vb| = vb - va := by
      rw [abs_of_neg (by linarith : va - vb < 0)]
      ring
    have hthm : ¬(-th + 90 > 180) := by linarith
    have harg : -(-th + 90) + 90 = th := by ring
    rcases hty with h2 | h3
    · subst h2
      simp only [twoRowToMac, macColToTwoRow, if_neg hflip, habs, if_neg hthm, harg,
        if_neg (show ¬((2 : ℚ) > 2) by norm_num),
        if_neg (show ¬((2 : ℚ) = 3) by norm_num)]
      rw [base_recovers _ _ _ hsc]
      simp only [TwoRow.mk.injEq, if_true, if_false]
      exact ⟨trivial, trivial, by ring, by ring⟩
    · subst h3
      simp only [twoRowToMac, macColToTwoRow, if_neg hflip, habs, if_neg hthm, harg,
        if_pos (show (3 : ℚ) > 2 by norm_num),
        if_pos (show (3 : ℚ) = 3 from rfl)]
      rw [base_recovers _ _ _ hsc]
      simp only [TwoRow.mk.injEq, if_true, if_false]
      exact ⟨trivial, trivial, by ring, by ring⟩
  · -- vb < va: 180° flip, MAC angle -θ+270 > 180, swap on the way back
    have hflip : va > vb := hv
    have habs : |va - vb| = va - vb := by
      rw [abs_of_pos (by linarith : 0 < va - vb)]
    have hthm : -th + 90 + 180 > 180 := by linarith
    have harg : -(-th + 90 + 180 - 180) + 90 = th := by ring
    rcases hty with h2 | h3
    · subst h2
      simp only [twoRowToMac, macColToTwoRow, if_pos hflip, habs, if_pos hthm, harg,
        if_neg (show ¬((2 : ℚ) > 2) by norm_num),
        if_neg (show ¬((2 : ℚ) = 3) by norm_num)]
      rw [base_recovers _ _ _ hsc]
      simp only [TwoRow.mk.injEq, if_true, if_false]
      exact ⟨trivial, trivial, by ring, by ring⟩
    · subst h3
      simp only [twoRowToMac, macColToTwoRow, if_pos hflip, habs, if_pos hthm, harg,
        if_pos (show (3 : ℚ) > 2 by norm_num),
        if_pos (show (3 : ℚ) = 3 from rfl)]
      rw [base_recovers _ _ _ hsc]
      simp only [TwoRow.mk.injEq, if_true, if_false]
      exact ⟨trivial, trivial, by ring, by ring⟩

/-- The domain on which the TWO → MAC → TWO round trip is the identity,
with a running 1-based encoded-image counter `k`: encoded rows must have
the alternating type pattern 2,3,2,3,… that `_mac_changed` reassigns
from sequence position parity, angles in the range where the 180° flip
branches match, distinct `vA`,`vB`, non-degenerate direction values,
and non-encoded rows must carry no angle or `vA`/`vB` data (which the
inverse zero-initialises). -/
def goodTwoAux (sinp cosp : ℚ → ℚ) : ℕ → List TwoRow → Bool
  | _, [] => true
  | k, r :: rest =>
      if r.ty > 1 then
        (decide (r.ty = if k % 2 = 1 then (2 : ℚ) else 3) &&
          (decide ((r.va < r.vb ∧ -90 ≤ r.th) ∨
            (r.vb < r.va ∧ -90 ≤ r.th ∧ r.th < 90)) &&
            (decide (¬(sinp (r.th * pq / 180) = 0 ∧ cosp (r.th * pq / 180) = 0)) &&
              goodTwoAux sinp cosp (k + 1) rest)))
      else
        (decide (r.th = 0) && (decide (r.va = 0) && (decide (r.vb = 0) &&
          goodTwoAux sinp cosp k rest)))

def goodTwo (sinp cosp : ℚ → ℚ) (two : List TwoRow) : Bool :=
  goodTwoAux sinp cosp 1 two

theorem macToTwoAux_roundtrip (sinp cosp : ℚ → ℚ) (two : List TwoRow) :
    ∀ k : ℕ, 0 < k → goodTwoAux sinp cosp k two = true →
      macToTwoAux sinp cosp (updateImlistAux k two) (twoToMac sinp cosp two) =
        some two := by
  induction two with
  | nil => intro k _ _; rfl
  | cons r rest ih =>
      intro k hk hgood
      by_cases hr : r.ty > 1
      · simp only [goodTwoAux, if_pos hr, Bool.and_eq_true, decide_eq_true_eq]
          at hgood
        obtain ⟨hty, hrange, hsc, hrest⟩ := hgood
        have hsub : r.ty - 1 > 0 := by linarith
        have him : macImType (k : ℚ) = if k % 2 = 0 then 3 else 2 :=
          macImType_natCast k hk
        have hgt : macImType (k : ℚ) > 1 := by
          rw [him]; split_ifs <;> norm_num
        have hfilter : (r :: rest).filter (fun s => decide (s.ty > 1)) =
            r :: rest.filter (fun s => decide (s.ty > 1)) := by
          simp [hr]
        rw [updateImlistAux, if_pos hsub]
        simp only [twoToMac, hfilter, List.map_cons]
        simp only [macToTwoAux, if_pos hgt]
        have ih' := ih (k + 1) (Nat.succ_pos k) hrest
        simp only [twoToMac] at ih'
        rw [ih']
        have hty23 : r.ty = 2 ∨ r.ty = 3 := by
          rcases Nat.mod_two_eq_zero_or_one k with h | h
          · right; rw [hty, if_neg (by omega)]
          · left; rw [hty, if_pos h]
        have him2 : macImType (k : ℚ) = r.ty := by
          rw [him, hty]
          rcases Nat.mod_two_eq_zero_or_one k with h | h
          · rw [if_pos h, if_neg (by omega)]
          · rw [if_neg (by omega), if_pos h]
        rw [Option.map_some', him2, twoRow_roundtrip sinp cosp r hty23 hrange hsc]
      · simp only [goodTwoAux, if_neg hr, Bool.and_eq_true, decide_eq_true_eq]
          at hgood
        obtain ⟨hth0, hva0, hvb0, hrest⟩ := hgood
        have hsub : ¬(r.ty - 1 > 0) := by
          push_neg at hr ⊢
          linarith
        have hle : macImType (r.ty - 1) = r.ty := by
          unfold macImType
          rw [if_neg hsub]
          ring
        have hngt : ¬(macImType (r.ty - 1) > 1) := by rw [hle]; exact hr
        have hfilter : (r :: rest).filter (fun s => decide (s.ty > 1)) =
            rest.filter (fun s => decide (s.ty > 1)) := by
          simp [hr]
        rw [updateImlistAux, if_neg hsub]
        simp only [twoToMac, hfilter]
        simp only [macToTwoAux, if_neg hngt]
        have ih' := ih k hk hrest
        simp only [twoToMac] at ih'
        rw [ih']
        rw [Option.map_some']
        have hhead : ({ th := 0, ty := macImType (r.ty - 1), va := 0, vb := 0 } :
            TwoRow) = r := by
          obtain ⟨a, b, c, d⟩ := r
          simp only at hth0 hva0 hvb0 hle
          simp [hth0, hva0, hvb0, hle]
        rw [hhead]

/-- **C1 (amended).** On its consistent domain the TWO → MAC → TWO
round trip is the identity (exactly, hence within any floating
tolerance): for every TWO matrix whose encoded rows carry the
alternating image types 2,3,2,3,… (the pattern `_mac_changed`
re-derives from sequence parity), have `vA < vB` with `θ ≥ -90°` or
`vA > vB` with `-90° ≤ θ < 90°`, and non-vanishing direction values,
and whose non-encoded rows have zero angle and `vA = vB = 0`,
converting to MAC form (`_two_changed`) and back (`_mac_changed`)
returns exactly the original matrix; consequently `_two_changed` and
`_mac_changed` are mutually inverse on the image of such matrices. The
unrestricted claim is false: see the counterexample. -/
theorem two_mac_roundtrip (sinp cosp : ℚ → ℚ) (two : List TwoRow)
    (h : goodTwo sinp cosp two = true) :
    macToTwo sinp cosp (updateImlist two) (twoToMac sinp cosp two) = some two :=
  macToTwoAux_roundtrip sinp cosp two 1 Nat.one_pos h

/-- Witness for C1 on the 4-row matrix with a tag row, a control row
and one encoded pair, with concrete direction values. -/
theorem two_mac_roundtrip_witness :
    goodTwo (fun _ => 1/2) (fun _ => 1/3)
        [⟨0, 0, 0, 0⟩, ⟨0, 1, 0, 0⟩, ⟨90, 2, 1, 2⟩, ⟨90, 3, 1, 2⟩] = true ∧
    macToTwo (fun _ => 1/2) (fun _ => 1/3)
        (updateImlist [⟨0, 0, 0, 0⟩, ⟨0, 1, 0, 0⟩, ⟨90, 2, 1, 2⟩, ⟨90, 3, 1, 2⟩])
        (twoToMac (fun _ => 1/2) (fun _ => 1/3)
          [⟨0, 0, 0, 0⟩, ⟨0, 1, 0, 0⟩, ⟨90, 2, 1, 2⟩, ⟨90, 3, 1, 2⟩]) =
      some [⟨0, 0, 0, 0⟩, ⟨0, 1, 0, 0⟩, ⟨90, 2, 1, 2⟩, ⟨90, 3, 1, 2⟩] :=
  ⟨by norm_num [goodTwo, goodTwoAux],
    two_mac_roundtrip (fun _ => 1/2) (fun _ => 1/3)
      [⟨0, 0, 0, 0⟩, ⟨0, 1, 0, 0⟩, ⟨90, 2, 1, 2⟩, ⟨90, 3, 1, 2⟩]
      (by norm_num [goodTwo, goodTwoAux])⟩

/-- **C1 counterexample.** The valid single-encoded-row TWO matrix
`[(θ=0, type=3, vA=1, vB=2)]` (`vA ≠ vB`) does not survive the round
trip: `_mac_changed` assigns the sole encoded image (1-based position
1) type 2 instead of 3 and skips the reverse-cycle correction, giving
`(0, 2, 2, 3)`. The trig parameters are instantiated with the exact
float values `sin(0) = 0` and `cos(0) = 1` at the only angle used, so
the computation matches the float code exactly and the discrepancy
(type 2 vs 3) is beyond any tolerance. -/
theorem two_mac_roundtrip_counterexample :
    macToTwo (fun _ => 0) (fun _ => 1) (updateImlist [⟨0, 3, 1, 2⟩])
        (twoToMac (fun _ => 0) (fun _ => 1) [⟨0, 3, 1, 2⟩]) =
      some [⟨0, 2, 2, 3⟩] ∧
    some [(⟨0, 2, 2, 3⟩ : TwoRow)] ≠ some [(⟨0, 3, 1, 2⟩ : TwoRow)] := by
  constructor
  · norm_num [updateImlist, updateImlistAux, twoToMac, twoRowToMac, macToTwo,
      macToTwoAux, macImType, macColToTwoRow, qmod2, pq]
  · simp only [ne_eq, Option.some.injEq, List.cons.injEq, TwoRow.mk.injEq]
    norm_num

end Veasl

namespace AslWidgets

/-! ## `SignalPreview._tdep_to_signal` / `_sigdiff` (aslimage_widget.py)

```
def _tdep_to_signal(self, tdep):
    vals = []
    for char in self._order[::-1]:
        vals.append(range(self._num[char]))
    t_idx = self._order[::-1].index('t')
    return np.array([tdep[items[t_idx]] for items in itertools.product(*vals)])
```
The order string is a list of axis characters, `num` gives each axis
character's cardinality, and `tdep` the per-timing-value parameters. -/

/-- `itertools.product` over a list of index ranges: tuples in
lexicographic order, first factor slowest, last factor fastest. -/
def prodLists : List (List ℕ) → List (List ℕ)
  | [] => [[]]
  | xs :: rest => xs.flatMap (fun x => (prodLists rest).map (x :: ·))

/-- Embedding of `SignalPreview._tdep_to_signal`: `vals` is the list of
index ranges over the reversed order string, `t_idx` the position of
`'t'` in the reversed order string, and the signal reads `tdep` at the
`t_idx` component of each product tuple. -/
def tdepToSignal (ord : List Char) (num : Char → ℕ) (tdep : List ℚ) : List ℚ :=
  (prodLists (ord.reverse.map (fun ch => List.range (num ch)))).map
    (fun items => tdep.getD (items.getD (List.indexOf 't' ord.reverse) 0) 0)

/-- Embedding of `SignalPreview._sigdiff`: residual of the mean signal
against the broadcast prediction, truncating the prediction when it is
at least as long as the measured signal and zero-padding it when it is
shorter. -/
def sigdiff (ord : List Char) (num : Char → ℕ) (tdep : List ℚ)
    (meanSignal : List ℚ) : List ℚ :=
  if (tdepToSignal ord num tdep).length ≥ meanSignal.length then
    List.zipWith (fun a b => a - b) meanSignal
      ((tdepToSignal ord num tdep).take meanSignal.length)
  else
    List.zipWith (fun a b => a - b) meanSignal
      ((tdepToSignal ord num tdep) ++
        List.replicate (meanSignal.length - (tdepToSignal ord num tdep).length) 0)

theorem flatMap_map_cons_length (xs : List ℕ) (ys : List (List ℕ)) :
    (xs.flatMap (fun x => ys.map (x :: ·))).length = xs.length * ys.length := by
  rw [List.length_flatMap]
  have hconst : (List.length ∘ fun x : ℕ => ys.map (x :: ·)) =
      Function.const ℕ ys.length := by
    funext x
    simp
  rw [hconst, List.map_const, List.sum_replicate, smul_eq_mul]

theorem prodLists_length (ls : List (List ℕ)) :
    (prodLists ls).length = (ls.map List.length).prod := by
  induction ls with
  | nil => rfl
  | cons xs rest ih =>
      rw [prodLists, flatMap_map_cons_length, ih, List.map_cons, List.prod_cons]

theorem flatMap_map_cons_getD (xs : List ℕ) (ys : List (List ℕ)) (i : ℕ)
    (hi : i < xs.length * ys.length) :
    (xs.flatMap (fun x => ys.map (x :: ·))).getD i [] =
      xs.getD (i / ys.length) 0 :: ys.getD (i % ys.length) [] := by
  induction xs generalizing i with
  | nil => simp at hi
  | cons x xs ih =>
      have hL : 0 < ys.length := by
        rcases Nat.eq_zero_or_pos ys.length with h0 | h0
        · rw [h0, Nat.mul_zero] at hi
          exact absurd hi (Nat.not_lt_zero i)
        · exact h0
      rw [List.flatMap_cons]
      by_cases h : i < ys.length
      · have hmlen : i < (ys.map (x :: ·)).length := by
          rw [List.length_map]
          exact h
        rw [List.getD_append _ _ _ _ hmlen, Nat.div_eq_of_lt h, Nat.mod_eq_of_lt h,
          List.getD_cons_zero, List.getD_eq_getElem _ _ hmlen, List.getElem_map,
          List.getD_eq_getElem _ _ h]
      · push_neg at h
        have hmlen : (ys.map (x :: ·)).length ≤ i := by
          rw [List.length_map]
          exact h
        have hi2 : i - ys.length < xs.length * ys.length := by
          rw [List.length_cons, Nat.succ_mul] at hi
          omega
        rw [List.getD_append_right _ _ _ _ hmlen, List.length_map, ih _ hi2]
        have hdiv : (i - ys.length) / ys.length = i / ys.length - 1 := by
          rw [Nat.div_eq_sub_div hL h, Nat.add_sub_cancel]
        have hdiv1 : 1 ≤ i / ys.length := by
          rw [Nat.le_div_iff_mul_le hL, one_mul]
          exact h
        have hmod : (i - ys.length) % ys.length = i % ys.length := by
          conv_rhs => rw [← Nat.sub_add_cancel h]
          rw [Nat.add_mod_right]
        rw [hdiv, hmod]
        have hcons : (x :: xs).getD (i / ys.length) 0 = xs.getD (i / ys.length - 1) 0 := by
          obtain ⟨m, hm⟩ : ∃ m, i / ys.length = m + 1 :=
            ⟨i / ys.length - 1, (Nat.sub_add_cancel hdiv1).symm⟩
          rw [hm, List.getD_cons_succ, Nat.add_sub_cancel]
        rw [hcons]

/-- Mixed-radix digit extraction from `itertools.product` tuples: in the
tuple at flat position `i`, the component at position `j` is the
base-`ns` digit of `i` with the last factor fastest. -/
theorem prodLists_range_getD (ns : List ℕ) :
    ∀ i j : ℕ, i < ns.prod → j < ns.length →
      ((prodLists (ns.map List.range)).getD i []).getD j 0 =
        i / (ns.drop (j + 1)).prod % ns.getD j 1 := by
  induction ns with
  | nil =>
      intro i j _ hj
      exact absurd hj (Nat.not_lt_zero j)
  | cons n rest ih =>
      intro i j hi hj
      have hprest : 0 < rest.prod := by
        rcases Nat.eq_zero_or_pos rest.prod with h0 | h0
        · rw [List.prod_cons, h0, Nat.mul_zero] at hi
          exact absurd hi (Nat.not_lt_zero i)
        · exact h0
      have hi' : i < n * rest.prod := by rwa [List.prod_cons] at hi
      have hlen : (prodLists (rest.map List.range)).length = rest.prod := by
        rw [prodLists_length, List.map_map]
        have hcomp : (List.length ∘ List.range) = id := by
          funext m
          simp
        rw [hcomp, List.map_id]
      rw [List.map_cons, prodLists,
        flatMap_map_cons_getD _ _ _
          (by rw [hlen, List.length_range]; exact hi'), hlen]
      cases j with
      | zero =>
          rw [List.getD_cons_zero]
          have hdlt : i / rest.prod < n := (Nat.div_lt_iff_lt_mul hprest).mpr hi'
          rw [List.getD_eq_getElem _ _ (by rw [List.length_range]; exact hdlt),
            List.getElem_range]
          simp only [List.drop_succ_cons, List.drop_zero, List.getD_cons_zero]
          rw [Nat.mod_eq_of_lt hdlt]
      | succ j' =>
          rw [List.getD_cons_succ]
          have hj' : j' < rest.length := Nat.lt_of_succ_lt_succ hj
          have hmody : i % rest.prod < rest.prod := Nat.mod_lt _ hprest
          rw [ih (i % rest.prod) j' hmody hj']
          simp only [List.drop_succ_cons, List.getD_cons_succ]
          rw [Nat.div_mod_eq_mod_mul_div, Nat.div_mod_eq_mod_mul_div]
          congr 1
          apply Nat.mod_mod_of_dvd
          have h1 : j' < (rest.take (j' + 1)).length := by
            rw [List.length_take]
            omega
          have hm_mem : rest.getD j' 1 ∈ rest.take (j' + 1) := by
            rw [List.getD_eq_getElem _ _ hj']
            have h2 : (rest.take (j' + 1)).get ⟨j', h1⟩ ∈ rest.take (j' + 1) :=
              List.get_mem _ j' h1
            rwa [List.get_eq_getElem, List.getElem_take] at h2
          obtain ⟨c, hc⟩ := List.dvd_prod hm_mem
          refine ⟨c, ?_⟩
          rw [← List.prod_take_mul_prod_drop rest (j' + 1), hc]
          ring

theorem indexOf_append_cons (a : Char) (l1 l2 : List Char) (h : a ∉ l1) :
    List.indexOf a (l1 ++ a :: l2) = l1.length := by
  induction l1 with
  | nil => simp [List.indexOf_cons_self]
  | cons b l ih =>
      have hb : (b == a) = false := by
        rw [beq_eq_false_iff_ne]
        intro e
        exact h (by rw [e]; exact List.mem_cons_self a l)
      rw [List.cons_append, List.indexOf_cons, hb, cond_false,
        ih (fun hm => h (List.mem_cons_of_mem b hm)), List.length_cons]

/-- **C4.** For every order string over the axis codes containing a
unique timing code `'t'` (written as `A ++ 't' :: B`), every per-axis
cardinality assignment `num` and every `tdep` of length `num 't'`, the
broadcast signal has length equal to the product of all axis
cardinalities, and its value at flat frame index `i` is `tdep` at the
timing digit of `i` in the mixed-radix decomposition in which the first
axis code of the order string varies fastest: the digit
`i / prod(num over codes before 't') % num 't'`. -/
theorem tdepToSignal_spec (A B : List Char) (num : Char → ℕ) (tdep : List ℚ)
    (_hA : 't' ∉ A) (hB : 't' ∉ B) (_hlen : tdep.length = num 't') :
    (tdepToSignal (A ++ 't' :: B) num tdep).length =
      ((A ++ 't' :: B).map num).prod ∧
    ∀ i, i < ((A ++ 't' :: B).map num).prod →
      (tdepToSignal (A ++ 't' :: B) num tdep).getD i 0 =
        tdep.getD (i / (A.map num).prod % num 't') 0 := by
  have hrev : (A ++ 't' :: B).reverse = B.reverse ++ 't' :: A.reverse := by
    rw [List.reverse_append, List.reverse_cons, List.append_assoc,
      List.singleton_append]
  have hvals : (A ++ 't' :: B).reverse.map (fun ch => List.range (num ch)) =
      ((A ++ 't' :: B).reverse.map num).map List.range := by
    rw [List.map_map]
    rfl
  have hnsprod : ((A ++ 't' :: B).reverse.map num).prod =
      ((A ++ 't' :: B).map num).prod := by
    rw [List.map_reverse, List.prod_reverse]
  have hlenprod : (prodLists (((A ++ 't' :: B).reverse.map num).map List.range)).length =
      ((A ++ 't' :: B).map num).prod := by
    rw [prodLists_length, List.map_map]
    have hcomp : (List.length ∘ List.range) = id := by
      funext m
      simp
    rw [hcomp, List.map_id, hnsprod]
  have hBrev : 't' ∉ B.reverse := fun hm => hB (List.mem_reverse.mp hm)
  have hidx : List.indexOf 't' (A ++ 't' :: B).reverse = B.reverse.length := by
    rw [hrev]
    exact indexOf_append_cons 't' B.reverse A.reverse hBrev
  have hnsform : (A ++ 't' :: B).reverse.map num =
      B.reverse.map num ++ num 't' :: A.reverse.map num := by
    rw [hrev, List.map_append, List.map_cons]
  constructor
  · rw [tdepToSignal]
    simp only [List.length_map]
    rw [hvals] at *
    rw [hlenprod.symm, hvals]
  · intro i hi
    rw [tdepToSignal]
    have hi' : i < (prodLists ((A ++ 't' :: B).reverse.map
        (fun ch => List.range (num ch)))).length := by
      rw [hvals, hlenprod]
      exact hi
    rw [List.getD_eq_getElem _ _ (by rw [List.length_map]; exact hi'),
      List.getElem_map]
    congr 1
    have hgetD : (prodLists ((A ++ 't' :: B).reverse.map
        (fun ch => List.range (num ch)))).getD i [] =
        (prodLists ((A ++ 't' :: B).reverse.map
          (fun ch => List.range (num ch)))).get ⟨i, hi'⟩ := by
      rw [List.getD_eq_getElem _ _ hi', List.get_eq_getElem]
    rw [List.get_eq_getElem] at hgetD
    rw [← hgetD, hvals, hidx]
    rw [prodLists_range_getD ((A ++ 't' :: B).reverse.map num) i B.reverse.length
      (by rw [hnsprod]; exact hi)
      (by rw [hnsform, List.length_append, List.length_map, List.length_cons]; omega)]
    have hdrop : (((A ++ 't' :: B).reverse.map num).drop (B.reverse.length + 1)).prod =
        (A.map num).prod := by
      rw [hnsform]
      have hlen1 : B.reverse.length = (B.reverse.map num).length := by
        rw [List.length_map]
      rw [hlen1]
      have hsplit : (B.reverse.map num) ++ num 't' :: (A.reverse.map num) =
          ((B.reverse.map num) ++ [num 't']) ++ (A.reverse.map num) := by
        rw [List.append_assoc, List.singleton_append]
      have hlen2 : (B.reverse.map num).length + 1 =
          ((B.reverse.map num) ++ [num 't']).length := by
        rw [List.length_append, List.length_singleton]
      rw [hsplit, hlen2, List.drop_left, List.map_reverse, List.prod_reverse]
    have hgetd1 : ((A ++ 't' :: B).reverse.map num).getD B.reverse.length 1 =
        num 't' := by
      rw [hnsform]
      have hge : (B.reverse.map num).length ≤ B.reverse.length := by
        rw [List.length_map]
      rw [List.getD_append_right _ _ _ _ hge, List.length_map, Nat.sub_self,
        List.getD_cons_zero]
    rw [hdrop, hgetd1]

/-- Witness for C4 at order `ltr` with timing cardinality 2. -/
theorem tdepToSignal_spec_witness :
    (tdepToSignal (['l'] ++ 't' :: ['r'])
        (fun c => if c = 't' then 2 else 3) [5, 7]).length =
      ((['l'] ++ 't' :: ['r']).map (fun c => if c = 't' then 2 else 3)).prod ∧
    ∀ i, i < ((['l'] ++ 't' :: ['r']).map (fun c => if c = 't' then 2 else 3)).prod →
      (tdepToSignal (['l'] ++ 't' :: ['r'])
          (fun c => if c = 't' then 2 else 3) [5, 7]).getD i 0 =
        [5, 7].getD
          (i / (['l'].map (fun c => if c = 't' then 2 else 3)).prod %
            (fun c => if c = 't' then 2 else 3) 't') 0 :=
  tdepToSignal_spec ['l'] ['r'] (fun c => if c = 't' then 2 else 3) [5, 7]
    (by decide) (by decide) (by decide)

/-- **C10.** The residual function is total in the face of frame-count
mismatch: for every `tdep` it returns a vector of length exactly
`len(mean_signal)`, equal pointwise to the mean signal minus the
predicted signal, where the prediction is truncated when longer than
the measured signal and zero-padded when shorter. -/
theorem sigdiff_spec (ord : List Char) (num : Char → ℕ) (tdep : List ℚ)
    (meanSignal : List ℚ) :
    (sigdiff ord num tdep meanSignal).length = meanSignal.length ∧
    ∀ i, i < meanSignal.length →
      (sigdiff ord num tdep meanSignal).getD i 0 =
        meanSignal.getD i 0 -
          (if i < (tdepToSignal ord num tdep).length
            then (tdepToSignal ord num tdep).getD i 0 else 0) := by
  by_cases h : (tdepToSignal ord num tdep).length ≥ meanSignal.length
  · have hlen : (sigdiff ord num tdep meanSignal).length = meanSignal.length := by
      rw [sigdiff, if_pos h, List.length_zipWith, List.length_take]
      omega
    refine ⟨hlen, ?_⟩
    intro i hi
    have hsig : i < (tdepToSignal ord num tdep).length := lt_of_lt_of_le hi h
    have hzlen : i < (List.zipWith (fun a b : ℚ => a - b) meanSignal
        ((tdepToSignal ord num tdep).take meanSignal.length)).length := by
      rw [List.length_zipWith, List.length_take]
      omega
    rw [sigdiff, if_pos h, List.getD_eq_getElem _ _ hzlen, List.getElem_zipWith,
      List.getElem_take, List.getD_eq_getElem _ _ hi, if_pos hsig,
      List.getD_eq_getElem _ _ hsig]
  · push_neg at h
    have hlen : (sigdiff ord num tdep meanSignal).length = meanSignal.length := by
      rw [sigdiff, if_neg (not_le.mpr h), List.length_zipWith, List.length_append,
        List.length_replicate]
      omega
    refine ⟨hlen, ?_⟩
    intro i hi
    have hzlen : i < (List.zipWith (fun a b : ℚ => a - b) meanSignal
        ((tdepToSignal ord num tdep) ++
          List.replicate (meanSignal.length - (tdepToSignal ord num tdep).length)
            0)).length := by
      rw [List.length_zipWith, List.length_append, List.length_replicate]
      omega
    rw [sigdiff, if_neg (not_le.mpr h), List.getD_eq_getElem _ _ hzlen,
      List.getElem_zipWith, List.getD_eq_getElem _ _ hi]
    by_cases hsig : i < (tdepToSignal ord num tdep).length
    · rw [List.getElem_append_left hsig, if_pos hsig,
        List.getD_eq_getElem _ _ hsig]
    · push_neg at hsig
      have hrep : i - (tdepToSignal ord num tdep).length <
          (List.replicate (meanSignal.length -
            (tdepToSignal ord num tdep).length) (0 : ℚ)).length := by
        rw [List.length_replicate]
        omega
      rw [List.getElem_append_right hsig, if_neg (not_lt.mpr hsig),
        List.getElem_replicate]

/-- Witness for C10 on a 1-frame prediction against a 2-frame signal
(zero-padding case), checked at the padded index. -/
theorem sigdiff_spec_witness :
    (sigdiff ['t'] (fun _ => 1) [2] [4, 9]).length = ([4, 9] : List ℚ).length ∧
    (sigdiff ['t'] (fun _ => 1) [2] [4, 9]).getD 1 0 =
      ([4, 9] : List ℚ).getD 1 0 -
        (if 1 < (tdepToSignal ['t'] (fun _ => 1) [2]).length
          then (tdepToSignal ['t'] (fun _ => 1) [2]).getD 1 0 else 0) :=
  ⟨(sigdiff_spec ['t'] (fun _ => 1) [2] [4, 9]).1,
    (sigdiff_spec ['t'] (fun _ => 1) [2] [4, 9]).2 1 (by decide)⟩

/-! ## `BlockFormat._autodetect` (aslimage_widget.py)

```
best, best_order = 1e9, order
for trial in itertools.permutations(order):
    trial = "".join(trial)
    ...
    if fitter.cost < best:
        best, best_order = fitter.cost, trial
if best_order.endswith("rt"): ...
```
The nonlinear least-squares fit cost of a candidate order is embedded
as an uninterpreted cost function (its float value is not exactly
representable); the selection loop, the `itertools.permutations`
enumeration order and the canonicalization are embedded exactly. -/

/-- All ways to pick one element out of a list, in position order,
returning the element and the remaining list. -/
def picks {α : Type} : List α → List (α × List α)
  | [] => []
  | a :: rest => (a, rest) :: (picks rest).map (fun p => (p.1, a :: p.2))

/-- `itertools.permutations` enumeration order (lexicographic by
position), with a structural fuel argument. -/
def permsPyFuel {α : Type} : ℕ → List α → List (List α)
  | _, [] => [[]]
  | 0, _ :: _ => []
  | n + 1, l => (picks l).flatMap (fun p => (permsPyFuel n p.2).map (p.1 :: ·))

/-- `itertools.permutations l` in Python's enumeration order. -/
def permsPy {α : Type} (l : List α) : List (List α) := permsPyFuel l.length l

/-- The selection loop: strict `<` against the best cost so far. -/
def selBest (cost : List Char → ℚ) :
    List (List Char) → ℚ × List Char → ℚ × List Char
  | [], acc => acc
  | t :: ts, (b, bo) =>
      if cost t < b then selBest cost ts (cost t, t)
      else selBest cost ts (b, bo)

/-- The metadata outcome of `_autodetect`: the `ibf` key and the
explicit `order` key after the handler runs (a popped key is `none`). -/
structure OrderChoice where
  ibf : Option String
  ord : Option (List Char)
  deriving DecidableEq, Repr

/-- The canonicalization step of `_autodetect`. -/
def canonicalize (bo : List Char) : OrderChoice :=
  if List.isSuffixOf ['r', 't'] bo then ⟨some "tis", none⟩
  else if List.isSuffixOf ['t', 'r'] bo then ⟨some "rpt", none⟩
  else ⟨none, some bo⟩

/-- Embedding of `BlockFormat._autodetect`, parameterized by the fit
cost of each candidate order. -/
def autodetect (cost : List Char → ℚ) (order0 : List Char) : OrderChoice :=
  canonicalize (selBest cost (permsPy order0) ((10 : ℚ) ^ 9, order0)).2

theorem selBest_of_forall (cost : List Char → ℚ) (ts : List (List Char)) :
    ∀ b0 o0, (∀ t ∈ ts, ¬(cost t < b0)) →
      selBest cost ts (b0, o0) = (b0, o0) := by
  induction ts with
  | nil => intro b0 o0 _; rfl
  | cons t ts ih =>
      intro b0 o0 h
      rw [selBest, if_neg (h t (List.mem_cons_self t ts))]
      exact ih b0 o0 (fun u hu => h u (List.mem_cons_of_mem t hu))

theorem selBest_argmin (cost : List Char → ℚ) (ts : List (List Char)) :
    ∀ b0 o0, (∃ t ∈ ts, cost t < b0) →
      ∃ pre w post, ts = pre ++ w :: post ∧ cost w < b0 ∧
        (∀ t ∈ ts, cost w ≤ cost t) ∧ (∀ t ∈ pre, cost w < cost t) ∧
        (selBest cost ts (b0, o0)).2 = w := by
  induction ts with
  | nil =>
      intro b0 o0 h
      obtain ⟨t, ht, _⟩ := h
      exact absurd ht (List.not_mem_nil t)
  | cons t ts ih =>
      intro b0 o0 h
      by_cases hc : cost t < b0
      · by_cases hmin : ∃ u ∈ ts, cost u < cost t
        · obtain ⟨pre, w, post, hts, hwlt, hwmin, hwpre, hres⟩ :=
            ih (cost t) t hmin
          refine ⟨t :: pre, w, post, by rw [hts, List.cons_append],
            lt_trans hwlt hc, ?_, ?_, ?_⟩
          · intro u hu
            rcases List.mem_cons.mp hu with rfl | hu'
            · exact le_of_lt hwlt
            · exact hwmin u hu'
          · intro u hu
            rcases List.mem_cons.mp hu with rfl | hu'
            · exact hwlt
            · exact hwpre u hu'
          · rw [selBest, if_pos hc]
            exact hres
        · push_neg at hmin
          refine ⟨[], t, ts, rfl, hc, ?_,
            fun u hu => absurd hu (List.not_mem_nil u), ?_⟩
          · intro u hu
            rcases List.mem_cons.mp hu with rfl | hu'
            · exact le_refl _
            · exact hmin u hu'
          · rw [selBest, if_pos hc]
            exact congrArg Prod.snd
              (selBest_of_forall cost ts (cost t) t
                (fun u hu => not_lt.mpr (hmin u hu)))
      · have h' : ∃ u ∈ ts, cost u < b0 := by
          obtain ⟨u, hu, hlt⟩ := h
          rcases List.mem_cons.mp hu with rfl | hu'
          · exact absurd hlt hc
          · exact ⟨u, hu', hlt⟩
        obtain ⟨pre, w, post, hts, hwlt, hwmin, hwpre, hres⟩ := ih b0 o0 h'
        have hble : b0 ≤ cost t := not_lt.mp hc
        refine ⟨t :: pre, w, post, by rw [hts, List.cons_append], hwlt, ?_, ?_, ?_⟩
        · intro u hu
          rcases List.mem_cons.mp hu with rfl | hu'
          · exact le_of_lt (lt_of_lt_of_le hwlt hble)
          · exact hwmin u hu'
        · intro u hu
          rcases List.mem_cons.mp hu with rfl | hu'
          · exact lt_of_lt_of_le hwlt hble
          · exact hwpre u hu'
        · rw [selBest, if_neg hc]
          exact hres

/-- **C3 (amended).** Provided at least one enumerated permutation has
fit cost below the initial threshold `1e9`, the order auto-detector
selects the first-enumerated permutation of minimal cost (strict `<`
against the best so far) and canonicalizes it: a winner ending in `rt`
sets `ibf = "tis"` and removes the explicit order key, one ending in
`tr` sets `ibf = "rpt"` and removes the order key, and otherwise `ibf`
is removed and the winning order string is stored. (When every
permutation costs at least `1e9` the detector instead keeps the current
order as the winner, which the original claim does not allow: see the
counterexample.) -/
theorem autodetect_first_minimizer (cost : List Char → ℚ) (order0 : List Char)
    (h : ∃ p ∈ permsPy order0, cost p < (10 : ℚ) ^ 9) :
    ∃ pre w post, permsPy order0 = pre ++ w :: post ∧
      (∀ p ∈ permsPy order0, cost w ≤ cost p) ∧
      (∀ p ∈ pre, cost w < cost p) ∧
      autodetect cost order0 = canonicalize w ∧
      (List.isSuffixOf ['r', 't'] w = true →
        autodetect cost order0 = ⟨some "tis", none⟩) ∧
      (List.isSuffixOf ['t', 'r'] w = true →
        autodetect cost order0 = ⟨some "rpt", none⟩) ∧
      (List.isSuffixOf ['r', 't'] w = false →
        List.isSuffixOf ['t', 'r'] w = false →
        autodetect cost order0 = ⟨none, some w⟩) := by
  obtain ⟨pre, w, post, hts, _hwlt, hwmin, hwpre, hres⟩ :=
    selBest_argmin cost (permsPy order0) ((10 : ℚ) ^ 9) order0 h
  have hcanon : autodetect cost order0 = canonicalize w := by
    rw [autodetect, hres]
  refine ⟨pre, w, post, hts, hwmin, hwpre, hcanon, ?_, ?_, ?_⟩
  · intro hs
    rw [hcanon, canonicalize, if_pos hs]
  · intro hs
    have hsfx : ['t', 'r'] <:+ w := List.isSuffixOf_iff_suffix.mp hs
    obtain ⟨s1, hw⟩ := hsfx
    have hexcl : ¬(List.isSuffixOf ['r', 't'] w = true) := by
      intro h2
      obtain ⟨s2, he⟩ := List.isSuffixOf_iff_suffix.mp h2
      have h1 : w.getLast? = some 'r' := by
        rw [← hw, show (s1 ++ ['t', 'r']) = (s1 ++ ['t']) ++ ['r'] by simp,
          List.getLast?_concat]
      have h2' : w.getLast? = some 't' := by
        rw [← he, show (s2 ++ ['r', 't']) = (s2 ++ ['r']) ++ ['t'] by simp,
          List.getLast?_concat]
      rw [h1] at h2'
      simp at h2'
    rw [hcanon, canonicalize, if_neg hexcl, if_pos hs]
  · intro hs1 hs2
    rw [hcanon, canonicalize, if_neg (by simp [hs1]), if_neg (by simp [hs2])]

/-- Witness for C3 with a constant-zero cost (all six permutations tie;
the first-enumerated one, the original order, wins). -/
theorem autodetect_first_minimizer_witness :
    ∃ pre w post, permsPy ['l', 'r', 't'] = pre ++ w :: post ∧
      (∀ p ∈ permsPy ['l', 'r', 't'],
        (fun _ : List Char => (0 : ℚ)) w ≤ (fun _ : List Char => (0 : ℚ)) p) ∧
      (∀ p ∈ pre, (fun _ : List Char => (0 : ℚ)) w <
        (fun _ : List Char => (0 : ℚ)) p) ∧
      autodetect (fun _ => 0) ['l', 'r', 't'] = canonicalize w ∧
      (List.isSuffixOf ['r', 't'] w = true →
        autodetect (fun _ => 0) ['l', 'r', 't'] = ⟨some "tis", none⟩) ∧
      (List.isSuffixOf ['t', 'r'] w = true →
        autodetect (fun _ => 0) ['l', 'r', 't'] = ⟨some "rpt", none⟩) ∧
      (List.isSuffixOf ['r', 't'] w = false →
        List.isSuffixOf ['t', 'r'] w = false →
        autodetect (fun _ => 0) ['l', 'r', 't'] = ⟨none, some w⟩) :=
  autodetect_first_minimizer (fun _ => 0) ['l', 'r', 't']
    ⟨['l', 'r', 't'], by decide, by norm_num⟩

/-- The concrete cost function of C3's counterexample: every
permutation of `lrt` costs `2e9` except `tlr`, which costs `1.5e9` —
all above the `1e9` initialization of the selection loop. -/
def costCe : List Char → ℚ :=
  fun o => if o = ['t', 'l', 'r'] then (3 / 2) * 10 ^ 9 else 2 * 10 ^ 9

/-- **C3 counterexample.** With every cost at least the `1e9`
threshold, the loop never updates and the detector canonicalizes the
original order `lrt` (ending in `rt`, giving `ibf = "tis"`), even
though the enumerated permutation `tlr` has the strictly minimal cost;
the claim would canonicalize `tlr` and store the explicit order
string, a different outcome. -/
theorem autodetect_counterexample :
    ((permsPy ['l', 'r', 't']).all
      (fun p => decide (costCe ['t', 'l', 'r'] ≤ costCe p)) = true) ∧
    costCe ['t', 'l', 'r'] < costCe ['l', 'r', 't'] ∧
    (['t', 'l', 'r'] ∈ permsPy ['l', 'r', 't']) ∧
    autodetect costCe ['l', 'r', 't'] = ⟨some "tis", none⟩ ∧
    canonicalize ['t', 'l', 'r'] = ⟨none, some ['t', 'l', 'r']⟩ ∧
    (⟨some "tis", none⟩ : OrderChoice) ≠ ⟨none, some ['t', 'l', 'r']⟩ := by
  refine ⟨?_, ?_, ?_, ?_, ?_, ?_⟩
  · simp +decide [permsPy, permsPyFuel, picks, costCe]
    norm_num
  · simp +decide [costCe]
    norm_num
  · decide
  · simp +decide [autodetect, permsPy, permsPyFuel, picks, selBest, costCe]
    norm_num
    simp +decide [canonicalize, List.isSuffixOf]
  · simp +decide [canonicalize, List.isSuffixOf]
  · simp
